import Mathlib

/-!
# Shallow embedding of the Messaging-System core (C++ backend)

This file embeds, in Lean 4, the core of the `muthigi2/Messaging-System`
repository: the lock-free ring buffer (`backend/src/ring_buffer.hpp`), the
message bus (`backend/src/message_bus.cpp` together with the `MessageBus`
class declaration and the `MarketData` / `MessageWrapper` records from the
bus header), and it proves the spec's claims about them.

Modelling conventions, justified against the source:

* `char[16]` / `char[32]` string fields are `List Nat` byte arrays; a byte
  is a `Nat` (value of the `char`), `0` is the null terminator.
* `double` fields (`price`, `volume`) are only ever copied, never computed
  with, anywhere in the bus or ring buffer; they are modelled as `Int` so
  that equality of records stays decidable.
* `uint64_t` counters (`published_count_`, `processed_count_`,
  `dropped_count_`, `sequence_`) and `std::size_t` ring indices are `Nat`.
  The ring indices are masked on every update in the source
  (`x & (Size - 1)`), which for the power-of-two `Size` equals `x % Size`;
  the embedding applies `% N` at exactly the places the source masks, so
  the indices stay below `N` just as in the source.  The `uint64_t`
  counters are increment-only and no claim concerns their wrap-around
  (which would require 2^64 operations), so they are unbounded naturals.
* The single consumer loop `process_messages` is embedded as its loop body
  (`processOne`): one iteration of the `while (should_continue)` loop.
  Runs of the bus are sequences of operations (`BusOp`) applied from the
  freshly constructed bus, which is the single-producer/single-consumer
  regime the spec's claims quantify over.
* Subscriber callbacks are `MarketData → Except String Unit`: a C++
  callback that returns normally is `.ok`, one that throws a
  `std::exception` is `.error`.  The `try { callback(data) } catch` in the
  consumer loop records the outcome and continues.
* C++ exceptions: in the embedded fragment no operation can actually
  throw (the ring buffer returns `bool`, `strncpy` and the map lookup do
  not throw, callback exceptions are caught at the invocation site), so
  `publish` and the loop body are total functions; the `catch` blocks of
  `publish` and `process_messages` are unreachable and have no analogue.
-/

namespace MessagingSystem

/-! ## Byte-array strings and `strncpy` (message_bus.cpp lines 46-56) -/

/-- The logical C-string value of a byte array: the bytes before the first
null terminator (`strlen`-prefix). -/
def cstr (a : List Nat) : List Nat := a.takeWhile (· ≠ 0)

/-- Embedding of `strncpy(dst, src, n); dst[n] = 0;` into a zero-initialised
`char[n+1]` destination, as done for `symbol` (n = 15) and `source`
(n = 31) in `MessageBus::publish` and `process_messages`: the first `n`
bytes of `src`'s C-string value are copied, the rest of the `n+1`-byte
destination stays (or is set) null. -/
def strncpy0 (src : List Nat) (n : Nat) : List Nat :=
  (cstr src).take n ++ List.replicate (n + 1 - ((cstr src).take n).length) 0

/-! ## `MarketData`, `MessageType`, `MessageWrapper` (message_bus.hpp) -/

/-- The `struct MarketData` from the bus header: `char symbol[16]; double
price; double volume; uint64_t seq; int64_t timestamp; char source[32];`. -/
structure MarketData where
  symbol : List Nat
  price : Int
  volume : Int
  seq : Nat
  timestamp : Int
  source : List Nat
  deriving DecidableEq, Repr

instance : Inhabited MarketData :=
  ⟨{ symbol := List.replicate 16 0, price := 0, volume := 0, seq := 0,
     timestamp := 0, source := List.replicate 32 0 }⟩

/-- The `enum class MessageType` of the bus header, with its single
`MARKET_DATA` variant. -/
inductive MessageType where
  | MARKET_DATA
  deriving DecidableEq, Repr

/-- The `struct MessageWrapper` of the bus header: a `MessageType` tag and a `union` holding a `MarketData
market_data; } data; }` — the union has a single member, so it is the
`MarketData` record. -/
structure MessageWrapper where
  type : MessageType
  market_data : MarketData
  deriving DecidableEq, Repr

/-- The default `MessageWrapper` constructor memsets the payload to zero
and sets `type` to `MARKET_DATA`. -/
instance : Inhabited MessageWrapper :=
  ⟨{ type := MessageType.MARKET_DATA, market_data := default }⟩

/-! ## `RingBuffer<T, Size>` (ring_buffer.hpp)

State: the `Size`-slot array `buffer_` and the two indices.  Both indices
are updated only through `(· + 1) & (Size - 1)`, so they are always below
`Size`; `size()` computes `(write_index_ - read_index_) & (Size - 1)`,
which for indices below `N = Size` (and `N` a power of two dividing 2^64)
equals `(write + N - read) % N`. -/

structure RingBuffer (T : Type) (N : Nat) where
  buffer : List T
  read_index : Nat
  write_index : Nat
  deriving DecidableEq, Repr

namespace RingBuffer

variable {T : Type} {N : Nat}

/-- The freshly constructed ring buffer: `read_index_ = write_index_ = 0`;
the slot memory was zero-filled by the shared-memory region, so every slot
holds the default (zeroed) element. -/
def init (T : Type) [Inhabited T] (N : Nat) : RingBuffer T N :=
  ⟨List.replicate N default, 0, 0⟩

/-- Embeds `bool write(const T& item)` (ring_buffer.hpp lines 43-53). -/
def write (rb : RingBuffer T N) (item : T) : Bool × RingBuffer T N :=
  let next_write := (rb.write_index + 1) % N
  if next_write = rb.read_index then
    (false, rb)  -- buffer is full
  else
    (true, { rb with buffer := rb.buffer.set rb.write_index item,
                     write_index := next_write })

/-- Embeds `bool read(T& item)` (ring_buffer.hpp lines 55-65): returns the moved
item and the new state, or `none` when empty. -/
def read [Inhabited T] (rb : RingBuffer T N) : Option (T × RingBuffer T N) :=
  if rb.read_index = rb.write_index then
    none  -- buffer is empty
  else
    some (rb.buffer.getD rb.read_index default,
          { rb with read_index := (rb.read_index + 1) % N })

/-- Embeds `std::size_t size() const` : `(write_index_ - read_index_) & (Size-1)`
for indices below `N`, a power of two. -/
def size (rb : RingBuffer T N) : Nat :=
  (rb.write_index + N - rb.read_index) % N

/-- Embeds `std::size_t capacity() const` : `Size - 1`. -/
def capacity (_rb : RingBuffer T N) : Nat := N - 1

/-- Embeds `bool is_full() const` : `size() == capacity()`. -/
def is_full (rb : RingBuffer T N) : Bool := rb.size = rb.capacity

/-- Embeds `bool is_empty() const` : `read_index_ == write_index_`. -/
def is_empty (rb : RingBuffer T N) : Bool := rb.read_index = rb.write_index

/-- The live slots of the buffer, oldest first: the elements written but
not yet read, at positions `read_index, read_index+1, …` mod `N`. -/
def contents [Inhabited T] (rb : RingBuffer T N) : List T :=
  (List.range rb.size).map (fun i => rb.buffer.getD ((rb.read_index + i) % N) default)

/-- The structural invariant every reachable ring-buffer state satisfies:
indices below `N`, slot array of length `N`. -/
def Inv (rb : RingBuffer T N) : Prop :=
  rb.read_index < N ∧ rb.write_index < N ∧ rb.buffer.length = N

end RingBuffer

/-! ## `MessageBus` (message_bus.hpp / message_bus.cpp)

The bus owns one ring buffer of `MessageWrapper` (template capacity
`DEFAULT_RING_BUFFER_SIZE`), the topic → callback registry
(`std::unordered_map<std::string, std::vector<callback>>`), the three
counters, the processing delay and the global sequence counter.  The
capacity is kept as a parameter `N` so the theorems cover every
power-of-two instantiation, the source's `N = 1024` included. -/

/-- The `static constexpr std::size_t DEFAULT_RING_BUFFER_SIZE = 1024;` constant. -/
def DEFAULT_RING_BUFFER_SIZE : Nat := 1024

/-- A subscriber callback `std::function<void(const MarketData&)>`:
`.ok ()` models a normal return, `.error e` a thrown `std::exception`
with message `e`. -/
def Callback : Type := MarketData → Except String Unit

/-- The subscriber registry, an association list standing for the
`unordered_map`: topic name → callbacks in subscription order. -/
def Registry : Type := List (String × List Callback)

/-- Embeds `subscribers_[topic].push_back(callback)`: append to the topic's
vector, default-constructing the entry when the topic is absent. -/
def regAdd : Registry → String → Callback → Registry
  | [], topic, cb => [(topic, [cb])]
  | (t, cbs) :: rest, topic, cb =>
    if t = topic then (t, cbs ++ [cb]) :: rest
    else (t, cbs) :: regAdd rest topic cb

/-- Embeds `subscribers_.find(topic)` followed by iterating the vector: the
callbacks registered under `topic`, the empty list when the topic is
absent (the consumer loop then skips the callback loop). -/
def regFind : Registry → String → List Callback
  | [], _ => []
  | (t, cbs) :: rest, topic => if t = topic then cbs else regFind rest topic

/-- The `MessageBus` state. -/
structure MessageBus (N : Nat) where
  ring : RingBuffer MessageWrapper N
  subscribers : Registry
  published_count : Nat
  processed_count : Nat
  dropped_count : Nat
  processing_delay_ms : Int
  sequence : Nat

/-- The freshly constructed bus: zero counters, zero sequence, empty
registry, delay 0, freshly placement-constructed ring buffer in the
zero-filled shared region. -/
def MessageBus.init (N : Nat) : MessageBus N :=
  { ring := RingBuffer.init MessageWrapper N
  , subscribers := []
  , published_count := 0
  , processed_count := 0
  , dropped_count := 0
  , processing_delay_ms := 0
  , sequence := 0 }

/-- The envelope built by `MessageBus::publish` (message_bus.cpp lines
42-56): `symbol`/`source` copied by `strncpy` into the zeroed fixed-size
arrays with a forced final null, `seq` set to `sequence_.fetch_add(1) + 1`
— `seqVal` is that assigned value, i.e. the pre-call counter plus one. -/
def mkWrapper (seqVal : Nat) (d : MarketData) : MessageWrapper :=
  { type := MessageType.MARKET_DATA
  , market_data :=
    { symbol := strncpy0 d.symbol 15
    , price := d.price
    , volume := d.volume
    , seq := seqVal
    , timestamp := d.timestamp
    , source := strncpy0 d.source 31 } }

/-- Embeds `bool MessageBus::publish(const std::string& topic, const MarketData&
data)` (message_bus.cpp lines 40-71).  The `topic` parameter is accepted
and ignored, exactly as in the source.  `sequence_.fetch_add(1)` happens
while the wrapper is built, before the write is attempted. -/
def MessageBus.publish (b : MessageBus N) (_topic : String) (d : MarketData) :
    Bool × MessageBus N :=
  let wrapper := mkWrapper (b.sequence + 1) d
  let b := { b with sequence := b.sequence + 1 }
  match b.ring.write wrapper with
  | (false, ring') =>
      (false, { b with ring := ring', dropped_count := b.dropped_count + 1 })
  | (true, ring') =>
      (true, { b with ring := ring', published_count := b.published_count + 1 })

/-- What one iteration of the consumer loop did, recorded for the trace
theorems: a successful publish enqueued `env`; a failed publish dropped
`env` (its sequence number is consumed); an iteration that dequeued a
message delivered `d` to the callbacks with the listed outcomes and then
slept `slept` ms; an iteration that found the buffer empty slept `slept`
ms; `admin` is a registry/delay update. -/
inductive Event where
  | published (env : MarketData)
  | dropped (env : MarketData)
  | delivered (d : MarketData) (outcomes : List (Except String Unit)) (slept : Int)
  | idle (slept : Int)
  | admin

/-- The tick reconstructed by the consumer loop (message_bus.cpp lines
80-88) from the dequeued wrapper: the same `strncpy` copies into a fresh
`MarketData`, the scalar fields copied verbatim. -/
def reconstruct (m : MarketData) : MarketData :=
  { symbol := strncpy0 m.symbol 15
  , price := m.price
  , volume := m.volume
  , seq := m.seq
  , timestamp := m.timestamp
  , source := strncpy0 m.source 31 }

/-- One iteration of `MessageBus::process_messages` (message_bus.cpp lines
74-112): attempt one ring-buffer read; on success with a `MARKET_DATA`
wrapper, reconstruct the tick, invoke every callback registered under the
fixed topic `"market_data"` in order — each invocation wrapped in its own
`try`/`catch`, so a fault is recorded and the remaining callbacks still
run — and increment `processed_count_`.  The delay sleep (lines 104-107)
runs at the end of the iteration in both branches: `slept` is the time
slept, `delay` ms when `delay > 0` and nothing otherwise. -/
def MessageBus.processOne (b : MessageBus N) : MessageBus N × Event :=
  let slept : Int := if b.processing_delay_ms > 0 then b.processing_delay_ms else 0
  match b.ring.read with
  | none => (b, Event.idle slept)
  | some (wrapper, ring') =>
      if wrapper.type = MessageType.MARKET_DATA then
        let d := reconstruct wrapper.market_data
        let outcomes := (regFind b.subscribers "market_data").map (fun cb => cb d)
        ({ b with ring := ring', processed_count := b.processed_count + 1 },
         Event.delivered d outcomes slept)
      else
        ({ b with ring := ring' }, Event.idle slept)

/-- Embeds `subscribe<MarketData>(topic, callback)`: append to the topic's list. -/
def MessageBus.subscribeCb (b : MessageBus N) (topic : String) (cb : Callback) :
    MessageBus N :=
  { b with subscribers := regAdd b.subscribers topic cb }

/-- Embeds `set_processing_delay_ms(ms)`: `store(std::max(0, ms))`. -/
def MessageBus.setProcessingDelay (b : MessageBus N) (ms : Int) : MessageBus N :=
  { b with processing_delay_ms := max 0 ms }

/-- Embeds `reset_counters()`: zero `published`, `processed`, `dropped`. -/
def MessageBus.resetCounters (b : MessageBus N) : MessageBus N :=
  { b with published_count := 0, processed_count := 0, dropped_count := 0 }

/-- The operations a client interleaving can perform on one bus: a
`publish` call, one consumer-loop iteration, a `subscribe` call, a
`set_processing_delay_ms` call, a `reset_counters` call. -/
inductive BusOp where
  | publish (topic : String) (d : MarketData)
  | iterate
  | subscribe (topic : String) (cb : Callback)
  | setDelay (ms : Int)
  | reset

/-- Apply one operation, recording what it did. -/
def MessageBus.step (b : MessageBus N) : BusOp → MessageBus N × Event
  | BusOp.publish t d =>
      let env := (mkWrapper (b.sequence + 1) d).market_data
      match b.publish t d with
      | (true, b') => (b', Event.published env)
      | (false, b') => (b', Event.dropped env)
  | BusOp.iterate => b.processOne
  | BusOp.subscribe t cb => (b.subscribeCb t cb, Event.admin)
  | BusOp.setDelay ms => (b.setProcessingDelay ms, Event.admin)
  | BusOp.reset => (b.resetCounters, Event.admin)

/-- Run a sequence of operations, collecting the event trace. -/
def MessageBus.run (b : MessageBus N) : List BusOp → MessageBus N × List Event
  | [] => (b, [])
  | op :: ops =>
      let (b', e) := b.step op
      let (b'', es) := b'.run ops
      (b'', e :: es)

/-! ### Trace observations -/

/-- The envelopes of the successful publishes, in publish order. -/
def pubs (es : List Event) : List MarketData :=
  es.filterMap (fun e => match e with | Event.published env => some env | _ => none)

/-- The envelopes of the failed (dropped) publishes, in order. -/
def drops (es : List Event) : List MarketData :=
  es.filterMap (fun e => match e with | Event.dropped env => some env | _ => none)

/-- The ticks delivered to the subscribers, in delivery order. -/
def reads (es : List Event) : List MarketData :=
  es.filterMap (fun e => match e with | Event.delivered d _ _ => some d | _ => none)

/-- The sequence numbers consumed by all publish calls (successful or
dropped), in call order. -/
def pubSeqs (es : List Event) : List Nat :=
  es.filterMap (fun e => match e with
    | Event.published env => some env.seq
    | Event.dropped env => some env.seq
    | _ => none)

/-- The number of publish calls in an operation sequence. -/
def countPublish (ops : List BusOp) : Nat :=
  (ops.filter (fun op => match op with | BusOp.publish _ _ => true | _ => false)).length

/-- Whether an operation is a `reset_counters` call. -/
def isReset : BusOp → Bool
  | BusOp.reset => true
  | _ => false

/-- The milliseconds slept by a consumer-loop iteration, 0 for the other
events. -/
def Event.sleptOf : Event → Int
  | Event.delivered _ _ s => s
  | Event.idle s => s
  | _ => 0

/-- The well-formedness every reachable bus state enjoys: the ring-buffer
invariant, and every live slot holds an envelope the consumer-side
`strncpy` pass reproduces verbatim (true because only `publish` writes
slots, and it truncates on the way in). -/
def BusWf (b : MessageBus N) : Prop :=
  b.ring.Inv ∧ ∀ w ∈ b.ring.contents, reconstruct w.market_data = w.market_data

/-- Rewriting every publish topic to the fixed `"market_data"` topic. -/
def retopic : BusOp → BusOp
  | BusOp.publish _ d => BusOp.publish "market_data" d
  | op => op

/-- A concrete tick (symbol `"AAPL"`, source `"R"`) for the witnesses. -/
def sampleTick : MarketData :=
  { symbol := [65, 65, 80, 76], price := 100, volume := 5, seq := 0,
    timestamp := 1000, source := [82] }

/-! ## Lemmas: byte strings -/

theorem takeWhile_append_of_all {p : Nat → Bool} {s : List Nat} (t : List Nat)
    (h : ∀ b ∈ s, p b) : (s ++ t).takeWhile p = s ++ t.takeWhile p := by
  induction s with
  | nil => simp
  | cons x xs ih =>
      have hx : p x = true := h x (by simp)
      have hxs : ∀ b ∈ xs, p b = true := fun b hb => h b (by simp [hb])
      simp [List.takeWhile_cons, hx, ih hxs]

theorem cstr_mem_ne_zero {a : List Nat} {b : Nat} (h : b ∈ cstr a) : b ≠ 0 := by
  have := List.mem_takeWhile_imp h
  simpa using this

theorem cstr_length_le (a : List Nat) : (cstr a).length ≤ a.length :=
  List.Sublist.length_le (List.takeWhile_sublist _)

theorem take_cstr_length_le (s : List Nat) (n : Nat) : ((cstr s).take n).length ≤ n := by
  simp

theorem strncpy0_length (s : List Nat) (n : Nat) : (strncpy0 s n).length = n + 1 := by
  have hle := take_cstr_length_le s n
  simp only [strncpy0, List.length_append, List.length_replicate]
  omega

theorem cstr_strncpy0 (s : List Nat) (n : Nat) :
    cstr (strncpy0 s n) = (cstr s).take n := by
  have hall : ∀ b ∈ (cstr s).take n, (decide (b ≠ 0)) = true := by
    intro b hb
    have : b ∈ cstr s := List.take_subset n (cstr s) hb
    simpa using cstr_mem_ne_zero this
  have hle := take_cstr_length_le s n
  show (List.takeWhile _ ((cstr s).take n ++ _)) = (cstr s).take n
  rw [takeWhile_append_of_all _ hall]
  have hpos : 1 ≤ n + 1 - ((cstr s).take n).length := by omega
  rcases Nat.exists_eq_add_of_le hpos with ⟨k, hk⟩
  rw [hk]
  simp [List.replicate_succ, List.takeWhile_cons]

theorem strncpy0_idem (s : List Nat) (n : Nat) :
    strncpy0 (strncpy0 s n) n = strncpy0 s n := by
  have h1 : cstr (strncpy0 s n) = (cstr s).take n := cstr_strncpy0 s n
  show (cstr (strncpy0 s n)).take n ++
      List.replicate (n + 1 - ((cstr (strncpy0 s n)).take n).length) 0 = strncpy0 s n
  rw [h1, List.take_take, min_self]
  rfl

theorem cstr_strncpy0_of_le (s : List Nat) (n : Nat) (h : (cstr s).length ≤ n) :
    cstr (strncpy0 s n) = cstr s := by
  rw [cstr_strncpy0, List.take_of_length_le h]

/-- The stored array has a null byte immediately after its C-string
value (read with default 1 so a real in-bounds read is forced). -/
theorem strncpy0_null_after (s : List Nat) (n : Nat) :
    (strncpy0 s n).getD (cstr (strncpy0 s n)).length 1 = 0 := by
  rw [cstr_strncpy0]
  have hle := take_cstr_length_le s n
  show ((cstr s).take n ++
      List.replicate (n + 1 - ((cstr s).take n).length) 0).getD
      ((cstr s).take n).length 1 = 0
  have hpos : 1 ≤ n + 1 - ((cstr s).take n).length := by omega
  rcases Nat.exists_eq_add_of_le hpos with ⟨k, hk⟩
  rw [hk, List.getD_eq_getElem?_getD, List.getElem?_append_right (Nat.le_refl _),
    Nat.sub_self]
  have : 1 + k = k + 1 := by omega
  rw [this, List.replicate_succ]
  simp

/-- The consumer-loop reconstruction returns exactly the stored envelope:
the second `strncpy` pass is the identity on already-truncated fields. -/
theorem reconstruct_mkWrapper (q : Nat) (d : MarketData) :
    reconstruct (mkWrapper q d).market_data = (mkWrapper q d).market_data := by
  simp [reconstruct, mkWrapper, strncpy0_idem]

/-! ## Lemmas: lists -/

theorem getD_set_ne {α : Type} (l : List α) {i j : Nat} (a d : α) (h : i ≠ j) :
    (l.set i a).getD j d = l.getD j d := by
  simp [List.getD_eq_getElem?_getD, List.getElem?_set_ne h]

theorem getD_set_self {α : Type} (l : List α) {i : Nat} (a d : α) (h : i < l.length) :
    (l.set i a).getD i d = a := by
  simp [List.getD_eq_getElem?_getD, List.getElem?_set_self, h]

/-- Rewrites `x % M` without `%`, for arguments below `2 * M`: every index
computation in the ring buffer has this shape. -/
theorem mod_two_cases (x M : Nat) (h : x < 2 * M) :
    x % M = if x < M then x else x - M := by
  split
  · exact Nat.mod_eq_of_lt (by assumption)
  · rw [Nat.mod_eq_sub_mod (by omega), Nat.mod_eq_of_lt (by omega)]

/-! ## Lemmas: ring buffer -/

namespace RingBuffer

variable {T : Type} {N : Nat}

theorem init_inv [Inhabited T] (h : 0 < N) : (init T N).Inv :=
  ⟨h, h, by simp [init]⟩

theorem contents_length [Inhabited T] (rb : RingBuffer T N) :
    rb.contents.length = rb.size := by
  simp [contents]

theorem size_lt (rb : RingBuffer T N) (h : rb.Inv) : rb.size < N :=
  Nat.mod_lt _ (Nat.lt_of_le_of_lt (Nat.zero_le _) h.1)

theorem size_cases (rb : RingBuffer T N) (h : rb.Inv) :
    rb.size = if rb.read_index ≤ rb.write_index
              then rb.write_index - rb.read_index
              else rb.write_index + N - rb.read_index := by
  obtain ⟨hr, hw, _⟩ := h
  unfold size
  rw [mod_two_cases _ N (by omega)]
  split_ifs <;> omega

theorem size_eq_zero_iff (rb : RingBuffer T N) (h : rb.Inv) :
    rb.size = 0 ↔ rb.read_index = rb.write_index := by
  obtain ⟨hr, hw, _⟩ := h
  unfold size
  rw [mod_two_cases _ N (by omega)]
  split_ifs <;> omega

theorem succ_mod_cases {w : Nat} (hw : w < N) :
    (w + 1) % N = if w + 1 < N then w + 1 else 0 := by
  have h := mod_two_cases (w + 1) N (by omega)
  split_ifs at h ⊢ <;> omega

/-- The full test in `write`: the candidate next write position equals the
read position exactly when `size() == capacity()`. -/
theorem next_eq_read_iff (rb : RingBuffer T N) (h : rb.Inv) :
    (rb.write_index + 1) % N = rb.read_index ↔ rb.size = N - 1 := by
  obtain ⟨hr, hw, _⟩ := h
  unfold size
  rw [succ_mod_cases hw, mod_two_cases _ N (by omega)]
  split_ifs <;> omega

theorem write_eq_fail (rb : RingBuffer T N) (item : T)
    (hc : (rb.write_index + 1) % N = rb.read_index) :
    rb.write item = (false, rb) := by
  simp [write, hc]

theorem write_eq_succ (rb : RingBuffer T N) (item : T)
    (hc : (rb.write_index + 1) % N ≠ rb.read_index) :
    rb.write item = (true, { rb with buffer := rb.buffer.set rb.write_index item,
                                     write_index := (rb.write_index + 1) % N }) := by
  simp [write, hc]

theorem write_inv (rb : RingBuffer T N) (item : T) (h : rb.Inv) :
    (rb.write item).2.Inv := by
  obtain ⟨hr, hw, hb⟩ := h
  by_cases hc : (rb.write_index + 1) % N = rb.read_index
  · rw [write_eq_fail _ _ hc]; exact ⟨hr, hw, hb⟩
  · rw [write_eq_succ _ _ hc]
    exact ⟨hr, Nat.mod_lt _ (by omega), by simpa using hb⟩

theorem write_size (rb : RingBuffer T N) (item : T) (h : rb.Inv)
    (hc : (rb.write_index + 1) % N ≠ rb.read_index) :
    (rb.write item).2.size = rb.size + 1 := by
  have hinv2 := write_inv rb item h
  rw [write_eq_succ _ _ hc] at hinv2 ⊢
  obtain ⟨hr, hw, hb⟩ := h
  rw [size_cases _ hinv2, size_cases rb ⟨hr, hw, hb⟩]
  dsimp only
  rw [succ_mod_cases hw] at hc ⊢
  split_ifs at hc ⊢ <;> omega

/-- The slot the successful write fills is one past the live range:
`(read + size) % N = write`. -/
theorem add_size_mod (rb : RingBuffer T N) (h : rb.Inv) :
    (rb.read_index + rb.size) % N = rb.write_index := by
  have hs := size_cases rb h
  obtain ⟨hr, hw, _⟩ := h
  rw [hs]
  split_ifs with hcase
  · rw [show rb.read_index + (rb.write_index - rb.read_index) = rb.write_index by omega,
      Nat.mod_eq_of_lt hw]
  · rw [show rb.read_index + (rb.write_index + N - rb.read_index) = rb.write_index + N
      by omega, Nat.add_mod_right, Nat.mod_eq_of_lt hw]

/-- Live-slot positions are distinct from the write position. -/
theorem add_lt_size_mod_ne (rb : RingBuffer T N) (h : rb.Inv) {i : Nat}
    (hi : i < rb.size) : (rb.read_index + i) % N ≠ rb.write_index := by
  intro heq
  have h1 := add_size_mod rb h
  have hs := size_lt rb h
  obtain ⟨hr, hw, _⟩ := h
  rw [mod_two_cases _ N (by omega)] at heq h1
  split_ifs at heq h1 <;> omega

/-- A successful `write` appends the item at the tail of the live
contents. -/
theorem write_contents [Inhabited T] (rb : RingBuffer T N) (item : T) (h : rb.Inv)
    (hc : (rb.write_index + 1) % N ≠ rb.read_index) :
    (rb.write item).2.contents = rb.contents ++ [item] := by
  have hsize := write_size rb item h hc
  rw [write_eq_succ _ _ hc] at hsize ⊢
  obtain ⟨hr, hw, hb⟩ := h
  unfold contents
  rw [hsize]
  dsimp only
  rw [List.range_succ, List.map_append]
  congr 1
  · apply List.map_congr_left
    intro i hi
    have hi2 : i < rb.size := by simpa using hi
    exact getD_set_ne _ _ _ (fun he => add_lt_size_mod_ne rb ⟨hr, hw, hb⟩ hi2 he.symm)
  · simp only [List.map_cons, List.map_nil]
    rw [add_size_mod rb ⟨hr, hw, hb⟩, getD_set_self _ _ _ (by omega)]

theorem read_eq_none_iff [Inhabited T] (rb : RingBuffer T N) :
    rb.read = none ↔ rb.read_index = rb.write_index := by
  unfold read
  split_ifs with hc <;> simp [hc]

theorem read_eq_some [Inhabited T] (rb : RingBuffer T N)
    (hc : rb.read_index ≠ rb.write_index) :
    rb.read = some (rb.buffer.getD rb.read_index default,
                    { rb with read_index := (rb.read_index + 1) % N }) := by
  simp [read, hc]

theorem read_inv [Inhabited T] (rb : RingBuffer T N) (h : rb.Inv)
    {x : T} {rb' : RingBuffer T N} (he : rb.read = some (x, rb')) : rb'.Inv := by
  obtain ⟨hr, hw, hb⟩ := h
  by_cases hc : rb.read_index = rb.write_index
  · rw [(read_eq_none_iff rb).mpr hc] at he; cases he
  · rw [read_eq_some rb hc] at he
    cases he
    exact ⟨Nat.mod_lt _ (by omega), hw, hb⟩

theorem read_size [Inhabited T] (rb : RingBuffer T N) (h : rb.Inv)
    {x : T} {rb' : RingBuffer T N} (he : rb.read = some (x, rb')) :
    rb.size = rb'.size + 1 := by
  by_cases hc : rb.read_index = rb.write_index
  · rw [(read_eq_none_iff rb).mpr hc] at he; cases he
  · have hinv2 := read_inv rb h he
    rw [read_eq_some rb hc] at he
    obtain ⟨hr, hw, hb⟩ := h
    cases he
    rw [size_cases _ hinv2, size_cases rb ⟨hr, hw, hb⟩]
    dsimp only
    rw [succ_mod_cases hr]
    split_ifs <;> omega

/-- A successful `read` pops the head of the live contents. -/
theorem read_contents [Inhabited T] (rb : RingBuffer T N) (h : rb.Inv)
    {x : T} {rb' : RingBuffer T N} (he : rb.read = some (x, rb')) :
    rb.contents = x :: rb'.contents := by
  by_cases hc : rb.read_index = rb.write_index
  · rw [(read_eq_none_iff rb).mpr hc] at he; cases he
  · have hsize := read_size rb h he
    rw [read_eq_some rb hc] at he
    obtain ⟨hr, hw, hb⟩ := h
    cases he
    unfold contents
    dsimp only
    rw [hsize]
    rw [List.range_succ_eq_map, List.map_cons, List.map_map]
    congr 1
    · rw [Nat.add_zero, Nat.mod_eq_of_lt hr]
    · apply List.map_congr_left
      intro i _
      simp only [Function.comp]
      rw [Nat.mod_add_mod, show rb.read_index + 1 + i = rb.read_index + (i + 1) by omega]

end RingBuffer

/-! ## Lemmas: message-bus steps -/

variable {N : Nat}

/-- A publish against a full ring: sequence still advances, the drop
counter is bumped, everything else (ring included) is unchanged. -/
theorem step_publish_drop (b : MessageBus N) (t : String) (d : MarketData)
    (hc : (b.ring.write_index + 1) % N = b.ring.read_index) :
    b.step (BusOp.publish t d) =
      ({ b with sequence := b.sequence + 1, dropped_count := b.dropped_count + 1 },
       Event.dropped (mkWrapper (b.sequence + 1) d).market_data) := by
  simp [MessageBus.step, MessageBus.publish, RingBuffer.write_eq_fail _ _ hc]

/-- A publish against a non-full ring: sequence advances, the wrapper is
written, the published counter is bumped. -/
theorem step_publish_ok (b : MessageBus N) (t : String) (d : MarketData)
    (hc : ¬(b.ring.write_index + 1) % N = b.ring.read_index) :
    b.step (BusOp.publish t d) =
      ({ b with sequence := b.sequence + 1,
                ring := (b.ring.write (mkWrapper (b.sequence + 1) d)).2,
                published_count := b.published_count + 1 },
       Event.published (mkWrapper (b.sequence + 1) d).market_data) := by
  simp [MessageBus.step, MessageBus.publish, RingBuffer.write_eq_succ _ _ hc]

/-- A consumer-loop iteration on an empty ring: no state change, only the
per-iteration sleep. -/
theorem step_iterate_empty (b : MessageBus N)
    (hc : b.ring.read_index = b.ring.write_index) :
    b.step BusOp.iterate =
      (b, Event.idle (if b.processing_delay_ms > 0 then b.processing_delay_ms else 0)) := by
  have hnone : b.ring.read = none := (RingBuffer.read_eq_none_iff b.ring).mpr hc
  simp [MessageBus.step, MessageBus.processOne, hnone]

theorem MessageType.eq_market_data (t : MessageType) : t = MessageType.MARKET_DATA := by
  cases t; rfl

/-- A consumer-loop iteration that dequeues a wrapper: the tick is
reconstructed, delivered to every `"market_data"` callback in order,
`processed_count` is bumped, and the iteration sleeps. -/
theorem step_iterate_read (b : MessageBus N) (w : MessageWrapper)
    (ring' : RingBuffer MessageWrapper N) (he : b.ring.read = some (w, ring')) :
    b.step BusOp.iterate =
      ({ b with ring := ring', processed_count := b.processed_count + 1 },
       Event.delivered (reconstruct w.market_data)
         ((regFind b.subscribers "market_data").map
           (fun cb => cb (reconstruct w.market_data)))
         (if b.processing_delay_ms > 0 then b.processing_delay_ms else 0)) := by
  simp [MessageBus.step, MessageBus.processOne, he, MessageType.eq_market_data w.type]

/-! ## Lemmas: message-bus runs -/

theorem busWf_init (h : 0 < N) : BusWf (MessageBus.init N) := by
  constructor
  · exact RingBuffer.init_inv h
  · intro w hw
    have h0 : (MessageBus.init N).ring.contents.length = 0 := by
      rw [RingBuffer.contents_length]
      simp [MessageBus.init, RingBuffer.init, RingBuffer.size]
    rw [List.length_eq_zero.mp h0] at hw
    cases hw

/-- Master queue-refinement induction: along any run from a well-formed
bus, well-formedness is preserved and the delivered ticks followed by the
still-buffered ones are exactly the initially buffered ones followed by
the successfully published ones — order preserved, nothing lost, nothing
duplicated. -/
theorem run_queue (ops : List BusOp) : ∀ b : MessageBus N, BusWf b →
    BusWf (b.run ops).1 ∧
    reads (b.run ops).2 ++ ((b.run ops).1.ring.contents).map (fun w => w.market_data) =
      (b.ring.contents).map (fun w => w.market_data) ++ pubs (b.run ops).2 := by
  induction ops with
  | nil => intro b hwf; simpa [MessageBus.run, pubs, reads] using hwf
  | cons op ops ih =>
    intro b hwf
    cases op with
    | publish t d =>
        by_cases hc : (b.ring.write_index + 1) % N = b.ring.read_index
        · -- dropped: ring unchanged
          have hs := step_publish_drop b t d hc
          simp only [MessageBus.run, hs]
          obtain ⟨h1, h2⟩ := ih { b with sequence := b.sequence + 1, dropped_count := b.dropped_count + 1 } hwf
          exact ⟨h1, by simpa [pubs, reads] using h2⟩
        · -- enqueued
          have hs := step_publish_ok b t d hc
          simp only [MessageBus.run, hs]
          have hcontents := RingBuffer.write_contents b.ring (mkWrapper (b.sequence + 1) d) hwf.1 hc
          have hwf2 : BusWf ({ b with sequence := b.sequence + 1, ring := (b.ring.write (mkWrapper (b.sequence + 1) d)).2, published_count := b.published_count + 1 } : MessageBus N) := by
            refine ⟨RingBuffer.write_inv b.ring _ hwf.1, ?_⟩
            intro w hw
            rw [show ({ b with sequence := b.sequence + 1, ring := (b.ring.write (mkWrapper (b.sequence + 1) d)).2, published_count := b.published_count + 1 } : MessageBus N).ring = (b.ring.write (mkWrapper (b.sequence + 1) d)).2 from rfl, hcontents] at hw
            rcases List.mem_append.mp hw with hw | hw
            · exact hwf.2 w hw
            · rcases List.mem_singleton.mp hw with rfl
              exact reconstruct_mkWrapper _ _
          obtain ⟨h1, h2⟩ := ih _ hwf2
          refine ⟨h1, ?_⟩
          simp only [pubs, reads, List.filterMap_cons] at h2 ⊢
          rw [h2]
          simp only [hcontents]
          simp
    | iterate =>
        by_cases hc : b.ring.read_index = b.ring.write_index
        · have hs := step_iterate_empty b hc
          simp only [MessageBus.run, hs]
          obtain ⟨h1, h2⟩ := ih b hwf
          exact ⟨h1, by simpa [pubs, reads] using h2⟩
        · have he := RingBuffer.read_eq_some b.ring hc
          have hcontents := RingBuffer.read_contents b.ring hwf.1 he
          have hs := step_iterate_read b _ _ he
          simp only [MessageBus.run, hs]
          have hwmem : b.ring.buffer.getD b.ring.read_index default ∈ b.ring.contents := by
            rw [hcontents]; exact List.mem_cons_self _ _
          have hnorm := hwf.2 _ hwmem
          have hwf2 : BusWf ({ b with ring := { b.ring with read_index := (b.ring.read_index + 1) % N }, processed_count := b.processed_count + 1 } : MessageBus N) := by
            refine ⟨RingBuffer.read_inv b.ring hwf.1 he, ?_⟩
            intro v hv
            exact hwf.2 v (by rw [hcontents]; exact List.mem_cons_of_mem _ hv)
          obtain ⟨h1, h2⟩ := ih _ hwf2
          refine ⟨h1, ?_⟩
          simp only [pubs, reads, List.filterMap_cons] at h2 ⊢
          rw [List.cons_append, h2, hcontents, hnorm]
          simp
    | subscribe t cb =>
        simp only [MessageBus.run, MessageBus.step]
        obtain ⟨h1, h2⟩ := ih (b.subscribeCb t cb) hwf
        exact ⟨h1, by simpa [pubs, reads, MessageBus.subscribeCb] using h2⟩
    | setDelay ms =>
        simp only [MessageBus.run, MessageBus.step]
        obtain ⟨h1, h2⟩ := ih (b.setProcessingDelay ms) hwf
        exact ⟨h1, by simpa [pubs, reads, MessageBus.setProcessingDelay] using h2⟩
    | reset =>
        simp only [MessageBus.run, MessageBus.step]
        obtain ⟨h1, h2⟩ := ih b.resetCounters hwf
        exact ⟨h1, by simpa [pubs, reads, MessageBus.resetCounters] using h2⟩

/-- Counter bookkeeping along any reset-free run: the three counters
advance by exactly the number of successful publishes, deliveries and
drops recorded in the trace. -/
theorem run_counts (ops : List BusOp) : ∀ b : MessageBus N,
    (∀ op ∈ ops, isReset op = false) →
    (b.run ops).1.published_count = b.published_count + (pubs (b.run ops).2).length ∧
    (b.run ops).1.processed_count = b.processed_count + (reads (b.run ops).2).length ∧
    (b.run ops).1.dropped_count = b.dropped_count + (drops (b.run ops).2).length := by
  induction ops with
  | nil => intro b _; simp [MessageBus.run, pubs, reads, drops]
  | cons op ops ih =>
    intro b hnr
    have hnr2 : ∀ op ∈ ops, isReset op = false := fun o ho => hnr o (by simp [ho])
    cases op with
    | publish t d =>
        by_cases hc : (b.ring.write_index + 1) % N = b.ring.read_index
        · have hs := step_publish_drop b t d hc
          simp only [MessageBus.run, hs]
          obtain ⟨h1, h2, h3⟩ := ih { b with sequence := b.sequence + 1, dropped_count := b.dropped_count + 1 } hnr2
          refine ⟨?_, ?_, ?_⟩ <;>
            simp only [pubs, reads, drops, List.filterMap_cons] at h1 h2 h3 ⊢ <;>
            simp [h1, h2, h3] <;> omega
        · have hs := step_publish_ok b t d hc
          simp only [MessageBus.run, hs]
          obtain ⟨h1, h2, h3⟩ := ih { b with sequence := b.sequence + 1, ring := (b.ring.write (mkWrapper (b.sequence + 1) d)).2, published_count := b.published_count + 1 } hnr2
          refine ⟨?_, ?_, ?_⟩ <;>
            simp only [pubs, reads, drops, List.filterMap_cons] at h1 h2 h3 ⊢ <;>
            simp [h1, h2, h3] <;> omega
    | iterate =>
        by_cases hc : b.ring.read_index = b.ring.write_index
        · have hs := step_iterate_empty b hc
          simp only [MessageBus.run, hs]
          obtain ⟨h1, h2, h3⟩ := ih b hnr2
          refine ⟨?_, ?_, ?_⟩ <;>
            simp only [pubs, reads, drops, List.filterMap_cons] at h1 h2 h3 ⊢ <;>
            simp [h1, h2, h3]
        · have he := RingBuffer.read_eq_some b.ring hc
          have hs := step_iterate_read b _ _ he
          simp only [MessageBus.run, hs]
          obtain ⟨h1, h2, h3⟩ := ih { b with ring := { b.ring with read_index := (b.ring.read_index + 1) % N }, processed_count := b.processed_count + 1 } hnr2
          refine ⟨?_, ?_, ?_⟩ <;>
            simp only [pubs, reads, drops, List.filterMap_cons] at h1 h2 h3 ⊢ <;>
            simp [h1, h2, h3] <;> omega
    | subscribe t cb =>
        simp only [MessageBus.run, MessageBus.step]
        obtain ⟨h1, h2, h3⟩ := ih (b.subscribeCb t cb) hnr2
        simp only [MessageBus.subscribeCb] at h1 h2 h3
        refine ⟨?_, ?_, ?_⟩
        · simpa [pubs] using h1
        · simpa [reads] using h2
        · simpa [drops] using h3
    | setDelay ms =>
        simp only [MessageBus.run, MessageBus.step]
        obtain ⟨h1, h2, h3⟩ := ih (b.setProcessingDelay ms) hnr2
        simp only [MessageBus.setProcessingDelay] at h1 h2 h3
        refine ⟨?_, ?_, ?_⟩
        · simpa [pubs] using h1
        · simpa [reads] using h2
        · simpa [drops] using h3
    | reset =>
        exact absurd (hnr BusOp.reset (by simp)) (by simp [isReset])

/-- Sequence bookkeeping along any run (resets included): the global
counter advances by one per publish call, and the sequence numbers
consumed by the publish calls — successful and dropped alike — are the
consecutive block starting right after the initial counter value. -/
theorem run_seq (ops : List BusOp) : ∀ b : MessageBus N,
    (b.run ops).1.sequence = b.sequence + countPublish ops ∧
    pubSeqs (b.run ops).2 = List.range' (b.sequence + 1) (countPublish ops) := by
  induction ops with
  | nil => intro b; simp [MessageBus.run, pubSeqs, countPublish]
  | cons op ops ih =>
    intro b
    cases op with
    | publish t d =>
        by_cases hc : (b.ring.write_index + 1) % N = b.ring.read_index
        · have hs := step_publish_drop b t d hc
          simp only [MessageBus.run, hs]
          obtain ⟨h1, h2⟩ := ih { b with sequence := b.sequence + 1, dropped_count := b.dropped_count + 1 }
          constructor
          · simp only [countPublish, List.filter_cons] at h1 ⊢
            simp at h1 ⊢
            omega
          · simp only [pubSeqs, List.filterMap_cons] at h2 ⊢
            rw [h2]
            simp only [countPublish, List.filter_cons]
            simp [mkWrapper, List.range'_succ]
        · have hs := step_publish_ok b t d hc
          simp only [MessageBus.run, hs]
          obtain ⟨h1, h2⟩ := ih { b with sequence := b.sequence + 1, ring := (b.ring.write (mkWrapper (b.sequence + 1) d)).2, published_count := b.published_count + 1 }
          constructor
          · simp only [countPublish, List.filter_cons] at h1 ⊢
            simp at h1 ⊢
            omega
          · simp only [pubSeqs, List.filterMap_cons] at h2 ⊢
            rw [h2]
            simp only [countPublish, List.filter_cons]
            simp [mkWrapper, List.range'_succ]
    | iterate =>
        by_cases hc : b.ring.read_index = b.ring.write_index
        · have hs := step_iterate_empty b hc
          simp only [MessageBus.run, hs]
          obtain ⟨h1, h2⟩ := ih b
          exact ⟨by simpa [countPublish] using h1, by simpa [pubSeqs, countPublish] using h2⟩
        · have he := RingBuffer.read_eq_some b.ring hc
          have hs := step_iterate_read b _ _ he
          simp only [MessageBus.run, hs]
          obtain ⟨h1, h2⟩ := ih { b with ring := { b.ring with read_index := (b.ring.read_index + 1) % N }, processed_count := b.processed_count + 1 }
          exact ⟨by simpa [countPublish] using h1, by simpa [pubSeqs, countPublish] using h2⟩
    | subscribe t cb =>
        simp only [MessageBus.run, MessageBus.step]
        obtain ⟨h1, h2⟩ := ih (b.subscribeCb t cb)
        exact ⟨by simpa [countPublish, MessageBus.subscribeCb] using h1,
               by simpa [pubSeqs, countPublish, MessageBus.subscribeCb] using h2⟩
    | setDelay ms =>
        simp only [MessageBus.run, MessageBus.step]
        obtain ⟨h1, h2⟩ := ih (b.setProcessingDelay ms)
        exact ⟨by simpa [countPublish, MessageBus.setProcessingDelay] using h1,
               by simpa [pubSeqs, countPublish, MessageBus.setProcessingDelay] using h2⟩
    | reset =>
        simp only [MessageBus.run, MessageBus.step]
        obtain ⟨h1, h2⟩ := ih b.resetCounters
        exact ⟨by simpa [countPublish, MessageBus.resetCounters] using h1,
               by simpa [pubSeqs, countPublish, MessageBus.resetCounters] using h2⟩

/-- Runs compose: the trace of `l1 ++ l2` is the trace of `l1` followed by
the trace of `l2` started from where `l1` left off. -/
theorem run_append (l1 l2 : List BusOp) : ∀ b : MessageBus N,
    b.run (l1 ++ l2) = (((b.run l1).1.run l2).1, (b.run l1).2 ++ ((b.run l1).1.run l2).2) := by
  induction l1 with
  | nil => intro b; simp [MessageBus.run]
  | cons op l1 ih =>
      intro b
      have hcons : (op :: l1) ++ l2 = op :: (l1 ++ l2) := rfl
      rw [hcons]
      simp only [MessageBus.run]
      rw [ih ((b.step op).1)]
      simp

/-- Draining: starting from a well-formed bus, `size()` consumer-loop
iterations deliver exactly the buffered envelopes, oldest first, leaving
the ring empty; no publish events happen. -/
theorem run_drain (k : Nat) : ∀ b : MessageBus N, BusWf b → k = b.ring.size →
    (b.run (List.replicate k BusOp.iterate)).1.ring.size = 0 ∧
    reads (b.run (List.replicate k BusOp.iterate)).2 =
      (b.ring.contents).map (fun w => w.market_data) ∧
    pubs (b.run (List.replicate k BusOp.iterate)).2 = [] := by
  induction k with
  | zero =>
      intro b _ hk
      have hnil : b.ring.contents = [] := by
        have := RingBuffer.contents_length b.ring
        rw [← hk] at this
        exact List.length_eq_zero.mp this
      simp [MessageBus.run, pubs, reads, hnil, ← hk]
  | succ k ih =>
      intro b hwf hk
      have hne : ¬ b.ring.read_index = b.ring.write_index := by
        intro hc
        rw [(RingBuffer.size_eq_zero_iff b.ring hwf.1).mpr hc] at hk
        omega
      have he := RingBuffer.read_eq_some b.ring hne
      have hcontents := RingBuffer.read_contents b.ring hwf.1 he
      have hsize := RingBuffer.read_size b.ring hwf.1 he
      have hs := step_iterate_read b _ _ he
      have hwmem : b.ring.buffer.getD b.ring.read_index default ∈ b.ring.contents := by
        rw [hcontents]; exact List.mem_cons_self _ _
      have hnorm := hwf.2 _ hwmem
      have hwf2 : BusWf ({ b with ring := { b.ring with read_index := (b.ring.read_index + 1) % N }, processed_count := b.processed_count + 1 } : MessageBus N) := by
        refine ⟨RingBuffer.read_inv b.ring hwf.1 he, ?_⟩
        intro v hv
        exact hwf.2 v (by rw [hcontents]; exact List.mem_cons_of_mem _ hv)
      have hk2 : k = ({ b with ring := { b.ring with read_index := (b.ring.read_index + 1) % N }, processed_count := b.processed_count + 1 } : MessageBus N).ring.size := by
        have hsize2 : b.ring.size = ({ b with ring := { b.ring with read_index := (b.ring.read_index + 1) % N }, processed_count := b.processed_count + 1 } : MessageBus N).ring.size + 1 := hsize
        omega
      obtain ⟨h1, h2, h3⟩ := ih _ hwf2 hk2
      rw [List.replicate_succ]
      simp only [MessageBus.run, hs]
      refine ⟨h1, ?_, ?_⟩
      · simp only [reads, List.filterMap_cons] at h2 ⊢
        rw [hcontents]
        simp only [List.map_cons, hnorm]
        rw [h2]
      · simpa [pubs] using h3

/-- The sequence numbers of the successful publishes form a sublist of the
sequence numbers consumed by all publish calls. -/
theorem pubs_seqs_sublist (es : List Event) :
    List.Sublist ((pubs es).map (fun d => d.seq)) (pubSeqs es) := by
  induction es with
  | nil => simp [pubs, pubSeqs]
  | cons e es ih =>
      cases e with
      | published env => simpa [pubs, pubSeqs] using ih.cons₂ env.seq
      | dropped env => simpa [pubs, pubSeqs] using ih.cons env.seq
      | delivered d outcomes slept => simpa [pubs, pubSeqs] using ih
      | idle slept => simpa [pubs, pubSeqs] using ih
      | admin => simpa [pubs, pubSeqs] using ih

/-- Trace length bookkeeping: every publish call contributes exactly one
sequence number, either to the successful or to the dropped side. -/
theorem pubSeqs_length (es : List Event) :
    (pubSeqs es).length = (pubs es).length + (drops es).length := by
  induction es with
  | nil => simp [pubs, drops, pubSeqs]
  | cons e es ih =>
      cases e <;> simp [pubs, drops, pubSeqs, List.filterMap_cons] at ih ⊢ <;> omega

/-- Evaluates `publish` against a full ring, as a single equation. -/
theorem publish_drop_eq (b : MessageBus N) (t : String) (d : MarketData)
    (hc : (b.ring.write_index + 1) % N = b.ring.read_index) :
    b.publish t d = (false, { b with sequence := b.sequence + 1, dropped_count := b.dropped_count + 1 }) := by
  simp [MessageBus.publish, RingBuffer.write_eq_fail _ _ hc]

/-- Evaluates `publish` against a non-full ring, as a single equation. -/
theorem publish_ok_eq (b : MessageBus N) (t : String) (d : MarketData)
    (hc : ¬(b.ring.write_index + 1) % N = b.ring.read_index) :
    b.publish t d = (true, { b with sequence := b.sequence + 1, ring := (b.ring.write (mkWrapper (b.sequence + 1) d)).2, published_count := b.published_count + 1 }) := by
  simp [MessageBus.publish, RingBuffer.write_eq_succ _ _ hc]

/-- One consumer-loop iteration that dequeues a wrapper, as a single
equation on `processOne`. -/
theorem processOne_read (b : MessageBus N) (w : MessageWrapper)
    (ring' : RingBuffer MessageWrapper N) (he : b.ring.read = some (w, ring')) :
    b.processOne =
      ({ b with ring := ring', processed_count := b.processed_count + 1 },
       Event.delivered (reconstruct w.market_data)
         ((regFind b.subscribers "market_data").map
           (fun cb => cb (reconstruct w.market_data)))
         (if b.processing_delay_ms > 0 then b.processing_delay_ms else 0)) := by
  simp [MessageBus.processOne, he, MessageType.eq_market_data w.type]

/-- The topic argument is dead: rewriting all publish topics leaves the
whole run — final state and full event trace — unchanged. -/
theorem run_retopic (ops : List BusOp) : ∀ b : MessageBus N,
    b.run (ops.map retopic) = b.run ops := by
  induction ops with
  | nil => intro b; rfl
  | cons op ops ih =>
      intro b
      have hstep : b.step (retopic op) = b.step op := by cases op <;> rfl
      simp only [List.map_cons, MessageBus.run, hstep, ih]

/-! ## The claims -/

/-- C4: for every ring-buffer state (satisfying the structural invariant
of reachable states), `write(item)` computes the candidate next write
position; when it equals the read position the buffer is full (`size() ==
capacity()`) and `write` returns `false` leaving read position, write
position and every slot unchanged; otherwise it stores `item` in the slot
at the current write position, leaves every other slot unchanged, advances
the write position to the candidate, keeps the read position, and returns
`true`. -/
theorem claim_C4 {T : Type} {N : Nat} (rb : RingBuffer T N) (item : T) (d : T)
    (h : rb.Inv) :
    ((rb.write_index + 1) % N = rb.read_index →
      rb.write item = (false, rb) ∧ rb.size = rb.capacity) ∧
    ((rb.write_index + 1) % N ≠ rb.read_index →
      (rb.write item).1 = true ∧
      (rb.write item).2.read_index = rb.read_index ∧
      (rb.write item).2.write_index = (rb.write_index + 1) % N ∧
      (rb.write item).2.buffer.getD rb.write_index d = item ∧
      ∀ j, j ≠ rb.write_index → (rb.write item).2.buffer.getD j d = rb.buffer.getD j d) := by
  constructor
  · intro hc
    refine ⟨RingBuffer.write_eq_fail rb item hc, ?_⟩
    show rb.size = N - 1
    exact (RingBuffer.next_eq_read_iff rb h).mp hc
  · intro hc
    rw [RingBuffer.write_eq_succ rb item hc]
    refine ⟨rfl, rfl, rfl, ?_, ?_⟩
    · exact getD_set_self _ _ _ (by rw [h.2.2]; exact h.2.1)
    · intro j hj
      exact getD_set_ne _ _ _ (fun he => hj he.symm)

/-- Witness for C4: a concrete empty 4-slot buffer is not full, the write
succeeds, stores the item in slot 0 and advances the write position. -/
theorem claim_C4_witness :
    ((⟨[0, 0, 0, 0], 0, 0⟩ : RingBuffer Nat 4).write 7).1 = true ∧
    ((⟨[0, 0, 0, 0], 0, 0⟩ : RingBuffer Nat 4).write 7).2.buffer.getD 0 0 = 7 := by
  have h := claim_C4 (⟨[0, 0, 0, 0], 0, 0⟩ : RingBuffer Nat 4) 7 0
    ⟨by decide, by decide, by decide⟩
  exact ⟨(h.2 (by decide)).1, (h.2 (by decide)).2.2.2.1⟩

/-- C5: for a ring buffer of power-of-two template capacity `N` and any
state satisfying the reachable-state invariant: `size()` is the masked
index difference, which equals `(write − read) mod N` as integers;
`capacity() = N − 1`; `is_full() ⇔ size() == capacity()`;
`is_empty() ⇔ size() == 0`; and with `capacity() ≥ 1` the buffer is
never simultaneously full and empty. -/
theorem claim_C5 {T : Type} {N k : Nat} (rb : RingBuffer T N) (hpow : N = 2 ^ k)
    (h : rb.Inv) :
    ((rb.size : Int) = ((rb.write_index : Int) - rb.read_index) % N) ∧
    ((rb.write_index + N - rb.read_index) &&& (N - 1) = rb.size) ∧
    rb.capacity = N - 1 ∧
    (rb.is_full = true ↔ rb.size = rb.capacity) ∧
    (rb.is_empty = true ↔ rb.size = 0) ∧
    (1 ≤ rb.capacity → ¬(rb.is_full = true ∧ rb.is_empty = true)) := by
  obtain ⟨hr, hw, hb⟩ := h
  refine ⟨?_, ?_, rfl, ?_, ?_, ?_⟩
  · show (((rb.write_index + N - rb.read_index) % N : Nat) : Int) = _
    have hcast : (((rb.write_index + N - rb.read_index) : Nat) : Int) =
        (rb.write_index : Int) + N - rb.read_index := by
      push_cast [Nat.cast_sub (by omega : rb.read_index ≤ rb.write_index + N)]
      ring
    rw [show (((rb.write_index + N - rb.read_index) % N : Nat) : Int) =
        (((rb.write_index + N - rb.read_index) : Nat) : Int) % (N : Int) by push_cast; ring,
      hcast]
    have : (rb.write_index : Int) + N - rb.read_index =
        ((rb.write_index : Int) - rb.read_index) + N * 1 := by ring
    rw [this, Int.add_mul_emod_self_left]
  · subst hpow
    exact Nat.and_pow_two_sub_one_eq_mod _ k
  · show (decide (rb.size = rb.capacity)) = true ↔ _
    simp
  · show (decide (rb.read_index = rb.write_index)) = true ↔ _
    simp only [decide_eq_true_eq]
    exact (RingBuffer.size_eq_zero_iff rb ⟨hr, hw, hb⟩).symm
  · intro hcap ⟨hfull, hempty⟩
    have h1 : rb.size = rb.capacity := by simpa [RingBuffer.is_full] using hfull
    have h2 : rb.size = 0 := by
      have := (RingBuffer.size_eq_zero_iff rb ⟨hr, hw, hb⟩).mpr
      simp only [RingBuffer.is_empty, decide_eq_true_eq] at hempty
      exact this hempty
    have : rb.capacity = N - 1 := rfl
    omega

/-- Witness for C5: the fresh 8-slot buffer (capacity 7) — size 0, not
full, empty. -/
theorem claim_C5_witness :
    ((RingBuffer.init Nat 8).size : Int) =
      (((RingBuffer.init Nat 8).write_index : Int) - (RingBuffer.init Nat 8).read_index) % 8 ∧
    (RingBuffer.init Nat 8).capacity = 7 := by
  have h := claim_C5 (RingBuffer.init Nat 8) (by decide : 8 = 2 ^ 3)
    ⟨by decide, by decide, by decide⟩
  exact ⟨h.1, h.2.2.1⟩

/-- C8: the `symbol` and `source` fields stored in the envelope are the
input bytes truncated to at most 15 resp. 31 usable bytes, always
followed by a terminating null inside the 16- resp. 32-byte array; inputs
within capacity are stored unchanged; and the tick handed to subscribers
carries exactly the stored (truncated) fields. -/
theorem claim_C8 (q : Nat) (d : MarketData) :
    cstr (mkWrapper q d).market_data.symbol = (cstr d.symbol).take 15 ∧
    (mkWrapper q d).market_data.symbol.length = 16 ∧
    (mkWrapper q d).market_data.symbol.getD
      (cstr (mkWrapper q d).market_data.symbol).length 1 = 0 ∧
    ((cstr d.symbol).length ≤ 15 →
      cstr (mkWrapper q d).market_data.symbol = cstr d.symbol) ∧
    cstr (mkWrapper q d).market_data.source = (cstr d.source).take 31 ∧
    (mkWrapper q d).market_data.source.length = 32 ∧
    (mkWrapper q d).market_data.source.getD
      (cstr (mkWrapper q d).market_data.source).length 1 = 0 ∧
    ((cstr d.source).length ≤ 31 →
      cstr (mkWrapper q d).market_data.source = cstr d.source) ∧
    reconstruct (mkWrapper q d).market_data = (mkWrapper q d).market_data := by
  refine ⟨?_, ?_, ?_, ?_, ?_, ?_, ?_, ?_, reconstruct_mkWrapper q d⟩
  · exact cstr_strncpy0 d.symbol 15
  · exact strncpy0_length d.symbol 15
  · exact strncpy0_null_after d.symbol 15
  · exact fun hle => cstr_strncpy0_of_le d.symbol 15 hle
  · exact cstr_strncpy0 d.source 31
  · exact strncpy0_length d.source 31
  · exact strncpy0_null_after d.source 31
  · exact fun hle => cstr_strncpy0_of_le d.source 31 hle

/-- Witness for C8: `sampleTick`'s 4-byte symbol is within capacity and
stored unchanged, null-padded to 16 bytes. -/
theorem claim_C8_witness :
    cstr (mkWrapper 1 sampleTick).market_data.symbol = [65, 65, 80, 76] ∧
    (mkWrapper 1 sampleTick).market_data.symbol.length = 16 := by
  have h := claim_C8 1 sampleTick
  refine ⟨?_, h.2.1⟩
  have h4 := h.2.2.2.1 (by decide)
  rw [h4]
  decide

/-- C3: along any reset-free run from the fresh bus (publishes under any
mix of topics), the sequence numbers assigned to the publish calls are
the single consecutive block `1, 2, …` — one global counter shared by all
topics, starting at 1 — and the published/dropped counters equal the
number of successful/failed publishes.  For a single `publish` call:
the sequence counter advances by one; a successful write increments
`published_count` only and returns `true`; a full buffer increments
`dropped_count` only and returns `false` — and `publish` is a total
function, so no exception is ever raised. -/
theorem claim_C3 (N : Nat) (hN : 0 < N) :
    (∀ ops : List BusOp, (∀ op ∈ ops, isReset op = false) →
      pubSeqs ((MessageBus.init N).run ops).2 = List.range' 1 (countPublish ops) ∧
      ((MessageBus.init N).run ops).1.published_count =
        (pubs ((MessageBus.init N).run ops).2).length ∧
      ((MessageBus.init N).run ops).1.dropped_count =
        (drops ((MessageBus.init N).run ops).2).length) ∧
    (∀ (b : MessageBus N) (t : String) (d : MarketData), b.ring.Inv →
      (b.publish t d).2.sequence = b.sequence + 1 ∧
      ((b.publish t d).1 = true →
        (b.publish t d).2.published_count = b.published_count + 1 ∧
        (b.publish t d).2.dropped_count = b.dropped_count) ∧
      ((b.publish t d).1 = false →
        (b.publish t d).2.dropped_count = b.dropped_count + 1 ∧
        (b.publish t d).2.published_count = b.published_count) ∧
      ((b.publish t d).1 = false ↔ b.ring.size = b.ring.capacity)) := by
  constructor
  · intro ops hnr
    obtain ⟨hs1, hs2⟩ := run_seq ops (MessageBus.init N)
    obtain ⟨hc1, hc2, hc3⟩ := run_counts ops (MessageBus.init N) hnr
    refine ⟨?_, ?_, ?_⟩
    · simpa [MessageBus.init] using hs2
    · simpa [MessageBus.init] using hc1
    · simpa [MessageBus.init] using hc3
  · intro b t d hinv
    by_cases hc : (b.ring.write_index + 1) % N = b.ring.read_index
    · rw [publish_drop_eq b t d hc]
      refine ⟨rfl, ?_, ?_, ?_⟩
      · intro h; simp at h
      · intro _; exact ⟨rfl, rfl⟩
      · have hfull : b.ring.size = N - 1 := (RingBuffer.next_eq_read_iff b.ring hinv).mp hc
        simpa [RingBuffer.capacity] using hfull
    · rw [publish_ok_eq b t d hc]
      refine ⟨rfl, ?_, ?_, ?_⟩
      · intro _; exact ⟨rfl, rfl⟩
      · intro h; simp at h
      · have hnfull : ¬ b.ring.size = N - 1 := fun h =>
          hc ((RingBuffer.next_eq_read_iff b.ring hinv).mpr h)
        simpa [RingBuffer.capacity] using hnfull

/-- Witness for C3: two publishes on the fresh 4-slot bus consume
sequence numbers `[1, 2]`, and a single publish on the fresh bus succeeds
and bumps `published_count` to 1. -/
theorem claim_C3_witness :
    pubSeqs ((MessageBus.init 4).run
      [BusOp.publish "a" sampleTick, BusOp.publish "b" sampleTick]).2 = [1, 2] ∧
    ((MessageBus.init 4).publish "a" sampleTick).2.published_count = 1 := by
  have h := claim_C3 4 (by decide)
  constructor
  · exact ((h.1 [BusOp.publish "a" sampleTick, BusOp.publish "b" sampleTick]
      (by decide)).1).trans (by decide)
  · exact ((h.2 (MessageBus.init 4) "a" sampleTick
      ⟨by decide, by decide, by decide⟩).2.1 (by decide)).1.trans (by decide)

/-- C10: every publish call — successful or dropped — advances the global
sequence counter by exactly one, so after `p` publish calls the counter
reads `p` (the next assigned number being `p + 1`); the numbers consumed
by all publish calls are exactly `1 … p`; the numbers of the successful
publishes form a sublist of `1 … p`; and successful and dropped publishes
partition the `p` consumed numbers, so each dropped publish leaves a gap
in the successfully enqueued sequence numbers. -/
theorem claim_C10 (N : Nat) (hN : 0 < N) (ops : List BusOp) :
    ((MessageBus.init N).run ops).1.sequence = countPublish ops ∧
    pubSeqs ((MessageBus.init N).run ops).2 = List.range' 1 (countPublish ops) ∧
    List.Sublist ((pubs ((MessageBus.init N).run ops).2).map (fun d => d.seq))
      (List.range' 1 (countPublish ops)) ∧
    (pubs ((MessageBus.init N).run ops).2).length +
      (drops ((MessageBus.init N).run ops).2).length = countPublish ops := by
  obtain ⟨hs1, hs2⟩ := run_seq ops (MessageBus.init N)
  have hs1i : ((MessageBus.init N).run ops).1.sequence = countPublish ops := by
    simpa [MessageBus.init] using hs1
  have hs2i : pubSeqs ((MessageBus.init N).run ops).2 =
      List.range' 1 (countPublish ops) := by
    simpa [MessageBus.init] using hs2
  refine ⟨hs1i, hs2i, ?_, ?_⟩
  · have := pubs_seqs_sublist ((MessageBus.init N).run ops).2
    rwa [hs2i] at this
  · have hlen := pubSeqs_length ((MessageBus.init N).run ops).2
    rw [hs2i] at hlen
    simpa using hlen.symm

/-- Witness for C10: publish three ticks into a 4-slot bus (3 usable
slots) and then a fourth; the fourth is dropped but still consumes
sequence number 4, the counter reads 4 and the successful numbers
`[1, 2, 3]` are a strict-prefix sublist of `[1, 2, 3, 4]`. -/
theorem claim_C10_witness :
    ((MessageBus.init 4).run [BusOp.publish "a" sampleTick, BusOp.publish "a" sampleTick,
      BusOp.publish "a" sampleTick, BusOp.publish "a" sampleTick]).1.sequence = 4 ∧
    (pubs ((MessageBus.init 4).run [BusOp.publish "a" sampleTick, BusOp.publish "a" sampleTick,
      BusOp.publish "a" sampleTick, BusOp.publish "a" sampleTick]).2).length = 3 := by
  have h := claim_C10 4 (by decide) [BusOp.publish "a" sampleTick, BusOp.publish "a" sampleTick,
    BusOp.publish "a" sampleTick, BusOp.publish "a" sampleTick]
  exact ⟨h.1.trans (by decide), by decide⟩

/-- C2: from the fresh bus, after any sequence of publishes,
consumer-loop iterations, subscribes and delay updates with no
`reset_counters` call, `processed_count + size() == published_count`
holds at the final observation point (and hence at every observation
point, the prefix of a reset-free run being reset-free). -/
theorem claim_C2 (N : Nat) (hN : 0 < N) (ops : List BusOp)
    (hnr : ∀ op ∈ ops, isReset op = false) :
    ((MessageBus.init N).run ops).1.processed_count +
      ((MessageBus.init N).run ops).1.ring.size =
      ((MessageBus.init N).run ops).1.published_count := by
  obtain ⟨hwf, hq⟩ := run_queue ops (MessageBus.init N) (busWf_init hN)
  obtain ⟨h1, h2, h3⟩ := run_counts ops (MessageBus.init N) hnr
  have hinitc : (MessageBus.init N).ring.contents = [] := by
    have h0 : (MessageBus.init N).ring.contents.length = 0 := by
      rw [RingBuffer.contents_length]
      simp [MessageBus.init, RingBuffer.init, RingBuffer.size]
    exact List.length_eq_zero.mp h0
  have hlen := congrArg List.length hq
  simp only [hinitc, List.map_nil, List.nil_append, List.length_append,
    List.length_map, RingBuffer.contents_length] at hlen
  have e1 : (MessageBus.init N).published_count = 0 := rfl
  have e2 : (MessageBus.init N).processed_count = 0 := rfl
  omega

/-- Witness for C2: one successful publish and one delivery on a 4-slot
bus — `1 + 0 = 1`. -/
theorem claim_C2_witness :
    ((MessageBus.init 4).run [BusOp.publish "a" sampleTick, BusOp.iterate]).1.processed_count +
      ((MessageBus.init 4).run [BusOp.publish "a" sampleTick, BusOp.iterate]).1.ring.size =
      ((MessageBus.init 4).run [BusOp.publish "a" sampleTick, BusOp.iterate]).1.published_count :=
  claim_C2 4 (by decide) [BusOp.publish "a" sampleTick, BusOp.iterate] (by decide)

/-- C1: single producer, single consumer, one bus, any interleaving of
operations from the fresh bus.  (i) The successfully published envelopes
are exactly the delivered ones followed by the still-buffered ones — so
the ticks read so far are a prefix of the publishes, in publish order,
each read at most once.  (ii) Appending `size()` further consumer-loop
iterations delivers the remainder: every successfully published tick has
then been read exactly once, in publish order ("eventually read exactly
once"), and the drain publishes nothing new.  (iii) The sequence numbers
observed across successive reads are strictly increasing. -/
theorem claim_C1 (N : Nat) (hN : 0 < N) (ops : List BusOp) :
    pubs ((MessageBus.init N).run ops).2 =
      reads ((MessageBus.init N).run ops).2 ++
        (((MessageBus.init N).run ops).1.ring.contents).map (fun w => w.market_data) ∧
    reads ((MessageBus.init N).run
        (ops ++ List.replicate (((MessageBus.init N).run ops).1.ring.size) BusOp.iterate)).2 =
      pubs ((MessageBus.init N).run ops).2 ∧
    pubs ((MessageBus.init N).run
        (ops ++ List.replicate (((MessageBus.init N).run ops).1.ring.size) BusOp.iterate)).2 =
      pubs ((MessageBus.init N).run ops).2 ∧
    List.Pairwise (· < ·)
      ((reads ((MessageBus.init N).run
        (ops ++ List.replicate (((MessageBus.init N).run ops).1.ring.size) BusOp.iterate)).2).map
        (fun d => d.seq)) := by
  obtain ⟨hwf, hq⟩ := run_queue ops (MessageBus.init N) (busWf_init hN)
  have hinitc : (MessageBus.init N).ring.contents = [] := by
    have h0 : (MessageBus.init N).ring.contents.length = 0 := by
      rw [RingBuffer.contents_length]
      simp [MessageBus.init, RingBuffer.init, RingBuffer.size]
    exact List.length_eq_zero.mp h0
  rw [hinitc, List.map_nil, List.nil_append] at hq
  have hconj1 := hq.symm
  obtain ⟨hd1, hd2, hd3⟩ := run_drain (((MessageBus.init N).run ops).1.ring.size)
    ((MessageBus.init N).run ops).1 hwf rfl
  have happ := run_append ops
    (List.replicate (((MessageBus.init N).run ops).1.ring.size) BusOp.iterate)
    (MessageBus.init N)
  have hreads : reads ((MessageBus.init N).run
      (ops ++ List.replicate (((MessageBus.init N).run ops).1.ring.size) BusOp.iterate)).2 =
      pubs ((MessageBus.init N).run ops).2 := by
    rw [happ]
    show reads (((MessageBus.init N).run ops).2 ++ _) = _
    rw [reads, List.filterMap_append, ← reads, ← reads, hd2, hconj1]
  have hpubs : pubs ((MessageBus.init N).run
      (ops ++ List.replicate (((MessageBus.init N).run ops).1.ring.size) BusOp.iterate)).2 =
      pubs ((MessageBus.init N).run ops).2 := by
    rw [happ]
    show pubs (((MessageBus.init N).run ops).2 ++ _) = _
    rw [pubs, List.filterMap_append, ← pubs, ← pubs, hd3, List.append_nil]
  refine ⟨hconj1, hreads, hpubs, ?_⟩
  rw [hreads]
  obtain ⟨_, hs2⟩ := run_seq ops (MessageBus.init N)
  have hs2i : pubSeqs ((MessageBus.init N).run ops).2 =
      List.range' 1 (countPublish ops) := by
    simpa [MessageBus.init] using hs2
  have hsub := pubs_seqs_sublist ((MessageBus.init N).run ops).2
  rw [hs2i] at hsub
  exact (List.pairwise_lt_range' 1 (countPublish ops)).sublist hsub

/-- Witness for C1: publish two ticks then run one iteration; the second
tick is still buffered, and one more (drain) iteration reads it — both
ticks read exactly once, sequence numbers `[1, 2]` strictly increasing. -/
theorem claim_C1_witness :
    reads ((MessageBus.init 4).run
        ([BusOp.publish "a" sampleTick, BusOp.publish "a" sampleTick, BusOp.iterate] ++
          List.replicate (((MessageBus.init 4).run [BusOp.publish "a" sampleTick,
            BusOp.publish "a" sampleTick, BusOp.iterate]).1.ring.size) BusOp.iterate)).2 =
      pubs ((MessageBus.init 4).run [BusOp.publish "a" sampleTick,
        BusOp.publish "a" sampleTick, BusOp.iterate]).2 ∧
    (pubs ((MessageBus.init 4).run [BusOp.publish "a" sampleTick,
        BusOp.publish "a" sampleTick, BusOp.iterate]).2).map (fun d => d.seq) = [1, 2] :=
  ⟨(claim_C1 4 (by decide) [BusOp.publish "a" sampleTick, BusOp.publish "a" sampleTick,
      BusOp.iterate]).2.1, by decide⟩

/-- C6: a consumer-loop iteration that dequeues a market-data message
invokes every callback registered under `"market_data"` exactly once, in
subscription order (the recorded outcomes are the in-order map over the
registered list), and increments `processed_count` regardless of the
outcomes — each invocation sits in its own catch, so a fault is recorded
in place and neither stops the remaining callbacks nor the increment.
In particular (Scenario C), with a callback that faults on every
invocation, publishing two ticks with one iteration each brings
`processed_count` to 2, each delivery having invoked the callback exactly
once — and `processOne` is total, so the loop never terminates on a
fault. -/
theorem claim_C6 (N : Nat) :
    (∀ (b : MessageBus N) (w : MessageWrapper) (ring' : RingBuffer MessageWrapper N),
      b.ring.read = some (w, ring') →
      (b.processOne).2 = Event.delivered (reconstruct w.market_data)
        ((regFind b.subscribers "market_data").map
          (fun cb => cb (reconstruct w.market_data)))
        (if b.processing_delay_ms > 0 then b.processing_delay_ms else 0) ∧
      (b.processOne).1.processed_count = b.processed_count + 1) ∧
    (((MessageBus.init 8).subscribeCb "market_data"
        (fun _ => Except.error "callback failure")).run
        [BusOp.publish "market_data" sampleTick, BusOp.iterate,
         BusOp.publish "market_data" sampleTick, BusOp.iterate]).1.processed_count = 2 ∧
    (reads (((MessageBus.init 8).subscribeCb "market_data"
        (fun _ => Except.error "callback failure")).run
        [BusOp.publish "market_data" sampleTick, BusOp.iterate,
         BusOp.publish "market_data" sampleTick, BusOp.iterate]).2).length = 2 := by
  refine ⟨?_, by decide, by decide⟩
  intro b w ring' he
  rw [processOne_read b w ring' he]
  exact ⟨rfl, rfl⟩

/-- Witness for C6: after one successful publish on the fresh 4-slot bus,
one iteration increments `processed_count` from 0 to 1. -/
theorem claim_C6_witness :
    ((((MessageBus.init 4).publish "x" sampleTick).2).processOne).1.processed_count =
      (((MessageBus.init 4).publish "x" sampleTick).2).processed_count + 1 :=
  ((claim_C6 4).1 (((MessageBus.init 4).publish "x" sampleTick).2) _ _ rfl).2

/-- Counterexample to C7: the claim says an iteration whose read finds
the buffer empty performs no sleep for every non-negative delay; but on
the fresh bus with delay set to 5 ms, the ring read returns empty and the
iteration still sleeps 5 ms (the sleep in `process_messages` sits outside
the successful-read branch). -/
theorem claim_C7_counterexample :
    ((MessageBus.init 8).setProcessingDelay 5).ring.read = none ∧
    Event.sleptOf ((((MessageBus.init 8).setProcessingDelay 5).processOne)).2 = 5 ∧
    (5 : Int) ≠ 0 :=
  ⟨rfl, rfl, by decide⟩

/-- C7 as amended: the processing-delay sleep is applied once per loop
iteration whenever the delay is positive — after a processed item and
equally on an empty-read iteration; an empty-read iteration leaves the
bus state unchanged and (the loop re-checks the run flag next), and only
with delay 0 does it perform no sleep (busy-poll). -/
theorem claim_C7_amended (N : Nat) (b : MessageBus N) :
    (b.ring.read = none →
      b.processOne = (b, Event.idle
        (if b.processing_delay_ms > 0 then b.processing_delay_ms else 0))) ∧
    (b.processing_delay_ms = 0 → b.ring.read = none →
      b.processOne = (b, Event.idle 0)) ∧
    (∀ (w : MessageWrapper) (ring' : RingBuffer MessageWrapper N),
      b.ring.read = some (w, ring') →
      Event.sleptOf (b.processOne).2 =
        (if b.processing_delay_ms > 0 then b.processing_delay_ms else 0)) := by
  refine ⟨?_, ?_, ?_⟩
  · intro he
    simp [MessageBus.processOne, he]
  · intro hz he
    simp [MessageBus.processOne, he, hz]
  · intro w ring' he
    rw [processOne_read b w ring' he]
    rfl

/-- Witness for C7 (amended): the fresh bus has delay 0 and an empty
ring, and one iteration is a pure busy-poll step. -/
theorem claim_C7_amended_witness :
    (MessageBus.init 8).processOne = (MessageBus.init 8, Event.idle 0) :=
  (claim_C7_amended 8 (MessageBus.init 8)).2.1 rfl rfl

/-- C9: the topic argument of `publish` has no effect — any two topics
yield the same return value, counter updates and enqueued envelope;
rewriting every publish topic in a run to `"market_data"` changes nothing
about the run; and the consumer loop always delivers a dequeued tick to
the callbacks registered under the fixed topic `"market_data"`, whatever
topic it was published under. -/
theorem claim_C9 (N : Nat) :
    (∀ (b : MessageBus N) (t1 t2 : String) (d : MarketData),
      b.publish t1 d = b.publish t2 d) ∧
    (∀ (ops : List BusOp) (b : MessageBus N), b.run (ops.map retopic) = b.run ops) ∧
    (∀ (b : MessageBus N) (w : MessageWrapper) (ring' : RingBuffer MessageWrapper N),
      b.ring.read = some (w, ring') →
      (b.processOne).2 = Event.delivered (reconstruct w.market_data)
        ((regFind b.subscribers "market_data").map
          (fun cb => cb (reconstruct w.market_data)))
        (if b.processing_delay_ms > 0 then b.processing_delay_ms else 0)) := by
  refine ⟨fun b t1 t2 d => rfl, fun ops b => run_retopic ops b, ?_⟩
  intro b w ring' he
  rw [processOne_read b w ring' he]

/-- Witness for C9: publishing under topic `"foo"` equals publishing
under `"market_data"` on the fresh bus, and after that publish the
iteration delivers to the (empty) `"market_data"` callback list with no
sleep. -/
theorem claim_C9_witness :
    (MessageBus.init 4).publish "foo" sampleTick =
      (MessageBus.init 4).publish "market_data" sampleTick ∧
    (MessageBus.init 4).run ([BusOp.publish "foo" sampleTick, BusOp.iterate].map retopic) =
      (MessageBus.init 4).run [BusOp.publish "foo" sampleTick, BusOp.iterate] ∧
    Event.sleptOf (((((MessageBus.init 4).publish "foo" sampleTick).2).processOne)).2 = 0 := by
  refine ⟨(claim_C9 4).1 (MessageBus.init 4) "foo" "market_data" sampleTick,
    (claim_C9 4).2.1 [BusOp.publish "foo" sampleTick, BusOp.iterate] (MessageBus.init 4), ?_⟩
  have h := (claim_C9 4).2.2 (((MessageBus.init 4).publish "foo" sampleTick).2) _ _ rfl
  rw [h]
  rfl

end MessagingSystem
